import Mathlib

/-!
# Verification of the log-ingestion and aggregation pipeline in `plot.py`

This file gives a shallow embedding of `src/packages/transformer/plot.py`:
the file-name identity resolver (`file_patt`), the metric normalizer
(`timeToSeconds`, Python `float(...)`), the per-file dialect parsers, the
aggregating ingestion loop, and the cross-variant ratio computation of the
plotting section.  Numeric values are modelled by `ℚ` (the log values are
short decimal literals, and none of the verified properties depend on
binary floating-point rounding).  Fallible Python operations (KeyError,
ValueError, the explicit `raise Exception`) are modelled with
`Except String`.
-/

namespace Plot

/-- Decidable equality for `Except` results, used to evaluate the model on
    concrete inputs. -/
instance {ε α : Type} [DecidableEq ε] [DecidableEq α] : DecidableEq (Except ε α) :=
  fun a b =>
    match a, b with
    | .ok x, .ok y =>
      if h : x = y then .isTrue (by rw [h]) else .isFalse fun hh => h (Except.ok.inj hh)
    | .error x, .error y =>
      if h : x = y then .isTrue (by rw [h]) else .isFalse fun hh => h (Except.error.inj hh)
    | .ok _, .error _ => .isFalse fun hh => Except.noConfusion hh
    | .error _, .ok _ => .isFalse fun hh => Except.noConfusion hh

/-! ## Identity Resolver: embedding of `file_patt`

```
^(?P<version>[^_]+?)(-(?P<commit>[a-z0-9]{7}))?_(?P<src>.+\.bim)\.(?P<type>usrtime|strace)$
```

The matcher below reproduces Python `re.match` backtracking order exactly:
`[^_]+?` is lazy (shortest version first), the `(-(commit))?` group is
greedy (commit-present tried before commit-absent), `.+` in the `src`
group is greedy (longest first), and `$` accepts either end-of-input or a
single trailing `'\n'` (Python `$` semantics without `re.MULTILINE`).
-/

/-- The character class `[a-z0-9]` of the `commit` group. -/
def isLowerAlnum (c : Char) : Bool :=
  ('a' ≤ c && c ≤ 'z') || ('0' ≤ c && c ≤ '9')

/-- `(?P<type>usrtime|strace)$`: the dialect suffix, with Python `$`
    also accepting one trailing newline. -/
def matchTy (cs : List Char) : Option (List Char) :=
  if cs = "usrtime".toList || cs = "usrtime".toList ++ ['\n'] then some "usrtime".toList
  else if cs = "strace".toList || cs = "strace".toList ++ ['\n'] then some "strace".toList
  else none

/-- The literal tail `\.bim\.` followed by the dialect suffix. -/
def matchClose : List Char → Option (List Char)
  | '.' :: 'b' :: 'i' :: 'm' :: '.' :: rest => matchTy rest
  | _ => none

/-- Backtracking continuation of the greedy `.+` inside
    `(?P<src>.+\.bim)\.(?P<type>...)$`: prefer to consume the next
    character into `.+` (it must not be a newline), fall back to closing
    the group here.  Returns the consumed characters and the dialect. -/
def srcCont : List Char → Option (List Char × List Char)
  | [] => none
  | c :: cs =>
    match (if c = '\n' then none else (srcCont cs).map fun p => (c :: p.1, p.2)) with
    | some r => some r
    | none => (matchClose (c :: cs)).map fun t => ([], t)

/-- `(?P<src>.+\.bim)\.(?P<type>usrtime|strace)$`: returns the captured
    `src` group (including its `.bim` tail) and the dialect. -/
def matchSrcType : List Char → Option (List Char × List Char)
  | [] => none
  | c :: cs =>
    if c = '\n' then none
    else (srcCont cs).map fun p => (c :: p.1 ++ ['.', 'b', 'i', 'm'], p.2)

/-- Result of `file_patt.match`: the four named groups. -/
structure FileId where
  version : List Char
  commit : Option (List Char)
  src : List Char
  ftype : List Char
deriving DecidableEq, Repr

/-- The greedy branch `-(?P<commit>[a-z0-9]{7})` followed by `_` and the
    rest of the pattern. -/
def tryCommit (cs : List Char) : Option (Option (List Char) × List Char × List Char) :=
  if cs.head? = some '-' ∧ 7 ≤ cs.tail.length ∧ (cs.tail.take 7).all isLowerAlnum = true
      ∧ cs.tail[7]? = some '_' then
    (matchSrcType (cs.tail.drop 8)).map fun p => (some (cs.tail.take 7), p.1, p.2)
  else none

/-- The pattern after the lazy `version` group:
    `(-(?P<commit>[a-z0-9]{7}))?_` and the rest.  The optional group is
    greedy, so the commit-present branch is tried first. -/
def afterVersion (cs : List Char) : Option (Option (List Char) × List Char × List Char) :=
  match tryCommit cs with
  | some r => some r
  | none =>
    match cs with
    | '_' :: rest => (matchSrcType rest).map fun p => ((none : Option (List Char)), p.1, p.2)
    | _ => none

/-- Lazy extension of the `version` group: `ver` is the (nonempty) text
    consumed so far; try to finish the match before consuming another
    `[^_]` character. -/
def goVer (ver : List Char) : List Char → Option FileId
  | [] => none
  | c :: cs =>
    match afterVersion (c :: cs) with
    | some (co, s, t) => some ⟨ver, co, s, t⟩
    | none => if c = '_' then none else goVer (ver ++ [c]) cs

/-- `file_patt.match` on a character list: the `version` group needs at
    least one `[^_]` character before the first continuation attempt. -/
def resolveL : List Char → Option FileId
  | [] => none
  | c :: cs => if c = '_' then none else goVer [c] cs

/-- `file_patt.match(file)` — the Identity Resolver.  `none` models
    `NotRecognized` (a failed match). -/
def resolveFile (s : String) : Option FileId :=
  resolveL s.toList

/-- Reconstruction of a file name from the resolved identity:
    `<version>[-<commit>]_<src>.<type>`. -/
def rebuild (id : FileId) : List Char :=
  id.version ++ (match id.commit with | some c => '-' :: c | none => []) ++
    '_' :: id.src ++ '.' :: id.ftype

/-- String-level reconstruction. -/
def rebuildName (id : FileId) : String :=
  (rebuild id).asString

/-! ## Metric Normalizer -/

/-- Decimal digit test for the `float` literal grammar. -/
def isDigit (c : Char) : Bool := '0' ≤ c && c ≤ '9'

/-- Value of a digit string. -/
def digitsToNat (ds : List Char) : Nat :=
  ds.foldl (fun n c => 10 * n + (c.toNat - '0'.toNat)) 0

/-- `str.split(sep)` for a one-character separator. -/
def splitOnChar (sep : Char) : List Char → List (List Char)
  | [] => [[]]
  | c :: cs =>
    match splitOnChar sep cs with
    | [] => if c = sep then [[], []] else [[c]]
    | h :: t => if c = sep then [] :: h :: t else (c :: h) :: t

/-- Python `float(s)` for the plain decimal literals that occur in these
    logs: optional sign, digits, optional fractional part.  Exotic float
    syntax (exponents, `inf`/`nan`, surrounding whitespace) never occurs in
    the measured files and is not modelled.  A non-numeric value is a
    `ValueError`. -/
def pyFloatL (cs : List Char) : Except String ℚ :=
  let body : ℚ × List Char :=
    match cs with
    | '-' :: r => (-1, r)
    | '+' :: r => (1, r)
    | l => (1, l)
  match splitOnChar '.' body.2 with
  | [ip] =>
    if ip ≠ [] ∧ ip.all isDigit = true then .ok (body.1 * digitsToNat ip)
    else .error ("ValueError: could not convert string to float: " ++ cs.asString)
  | [ip, fp] =>
    if ip ++ fp ≠ [] ∧ (ip ++ fp).all isDigit = true then
      .ok (body.1 * ((digitsToNat ip : ℚ) + (digitsToNat fp : ℚ) / (10 : ℚ) ^ fp.length))
    else .error ("ValueError: could not convert string to float: " ++ cs.asString)
  | _ => .error ("ValueError: could not convert string to float: " ++ cs.asString)

/-- Python `float(s)` on a string. -/
def pyFloat (s : String) : Except String ℚ := pyFloatL s.toList

/-- `timeToSeconds` from the source.  The Python condition
    `src.count(':') == '2'` compares an `int` with the *string* `'2'`,
    which is always `False` in Python, so the `h, m, s = src.split(':')`
    branch is dead code and the tuple is always `(0, *src.split(':'))`.
    Unpacking `(0, *parts)` into `h, m, s` therefore succeeds only when
    `src` contains exactly one `':'`; any other shape raises `ValueError`.
    On success the value is `hours*3600 + minutes*60 + seconds` with
    `hours = 0`. -/
def timeToSeconds (src : String) : Except String ℚ :=
  match splitOnChar ':' src.toList with
  | [m, s] => do
    let mq ← pyFloatL m
    let sq ← pyFloatL s
    .ok ((0 : ℚ) * 3600 + mq * 60 + sq)
  | _ => .error ("ValueError: cannot unpack " ++ src ++ " into h, m, s")

/-! ## Dialect Parsers -/

/-- The four statistic labels recognized by `usrtime_patt`, in the order
    of the regex alternation (`(User|System) time (seconds)` expands to
    the first two). -/
def statNames : List String :=
  ["User time (seconds)", "System time (seconds)",
   "Elapsed (wall clock) time (h:mm:ss or m:ss)",
   "Maximum resident set size (kbytes)"]

/-- The leading `(\t|[ ]{2})` of `usrtime_patt`. -/
def stripIndent : List Char → Option (List Char)
  | '\t' :: r => some r
  | ' ' :: ' ' :: r => some r
  | _ => none

/-- `usrtime_patt.match(line)`: returns the `stat_name` and `value`
    groups.  Lines are modelled without their trailing newline, so
    `(?P<value>.*)$` is "the rest of the line", which must be
    newline-free. -/
def usrtimeMatch (line : String) : Option (String × String) :=
  match stripIndent line.toList with
  | none => none
  | some rest =>
    statNames.findSome? fun nm =>
      let pat := nm.toList ++ [':', ' ']
      if pat.isPrefixOf rest then
        let v := rest.drop pat.length
        if v.all (fun c => !(c = '\n')) then some (nm, v.asString) else none
      else none

/-- The `usrtime` branch of the per-line loop: the four `startswith`
    dispatches on `stat_name`, each converting `value` and yielding the
    corresponding metric-field write.  Lines matching no statistic are
    ignored. -/
def usrtimeLineWrite (line : String) : Except String (Option (String × ℚ)) :=
  match usrtimeMatch line with
  | none => .ok none
  | some (stat_name, value) =>
    if "Elapsed".toList.isPrefixOf stat_name.toList then
      (timeToSeconds value).map fun q => some ("wall_clock_time", q)
    else if "System time".toList.isPrefixOf stat_name.toList then
      (pyFloat value).map fun q => some ("system_time", q)
    else if "User time".toList.isPrefixOf stat_name.toList then
      (pyFloat value).map fun q => some ("user_time", q)
    else if "Maximum resident set size".toList.isPrefixOf stat_name.toList then
      (pyFloat value).map fun q => some ("max_rss", q)
    else .ok none

/-- The `strace` branch of the per-line loop.  The module-level `syscalls`
    table is empty in the source (all entries are commented out), so the
    inner `for name in syscalls.keys()` loop never writes a field and
    `float(...)` is never reached: an strace data line contributes
    nothing. -/
def straceLineWrite (_line : String) : Except String (Option (String × ℚ)) :=
  .ok none

/-- Per-line metric extraction, dispatched on the dialect. -/
def lineWrite (ftype : String) (line : String) : Except String (Option (String × ℚ)) :=
  if ftype = "usrtime" then usrtimeLineWrite line else straceLineWrite line

/-- Substring test (Python `re.search` with an unanchored pattern). -/
def listIsInfix (pat : List Char) : List Char → Bool
  | [] => pat.isEmpty
  | c :: rest => pat.isPrefixOf (c :: rest) || listIsInfix pat rest

/-- `start_patt.search(line)`: for `usrtime` the pattern
    `^(\t|  )Command being timed` (anchored, so a prefix test); for
    `strace` the pattern `% time` (unanchored substring test). -/
def startMatch (ftype : String) (line : String) : Bool :=
  if ftype = "usrtime" then
    "\tCommand being timed".toList.isPrefixOf line.toList ||
      "  Command being timed".toList.isPrefixOf line.toList
  else
    listIsInfix "% time".toList line.toList

/-- The per-file line scan: seek the start marker, then collect the
    metric-field writes in order.  If end-of-input is reached while still
    seeking, the source raises `Exception(f'never started file {file}')`.
    The data lines of the marker line itself are not scanned (the loop
    `continue`s after setting `started`). -/
def parseLines (ftype fname : String) : Bool → List String → Except String (List (String × ℚ))
  | started, [] =>
    if started then .ok [] else .error ("never started file " ++ fname)
  | false, line :: rest => parseLines ftype fname (startMatch ftype line) rest
  | true, line :: rest =>
    match lineWrite ftype line with
    | .error e => .error e
    | .ok none => parseLines ftype fname true rest
    | .ok (some w) => (parseLines ftype fname true rest).map fun ws => w :: ws

/-! ## Aggregator -/

/-- One observation for a (source, variant) pair: the Python dict
    `tform_data`, holding the fixed `version`/`commit` entries plus the
    metric fields written during parsing. -/
structure RunData where
  version : String
  commit : Option String
  metrics : String → Option ℚ

/-- The per-source record: the Python dict `data[source_file]`. -/
structure SourceData where
  size_gb : ℚ
  path : String
  transforms : String → Option RunData

/-- The module-level `data` dict. -/
def Dataset : Type := String → Option SourceData

/-- Pointwise map update (one Python dict assignment). -/
def updf {α : Type} (m : String → Option α) (k : String) (v : α) : String → Option α :=
  fun q => if q = k then some v else m q

/-- Apply a list of metric-field writes in order (last write wins). -/
def applyWrites (m : String → Option ℚ) (ws : List (String × ℚ)) : String → Option ℚ :=
  ws.foldl (fun acc w => updf acc w.1 w.2) m

/-- Association-list lookup (Python dict literal lookup). -/
def lookupA {α : Type} : List (String × α) → String → Option α
  | [], _ => none
  | (k, v) :: rest, q => if q = k then some v else lookupA rest q

/-- The hard-coded `file_paths` table. -/
def filePaths : List (String × String) :=
  [("Juergen.Hofer.Bad.Normals.bim", "/home/mike/work/Juergen.Hofer.Bad.Normals.bim"),
   ("bad-aspect-old.bim", "/home/mike/work/bad-aspect-old.bim"),
   ("shell-noobstruction.bim", "/home/mike/work/shell-noobstruction.bim")]

/-- The `cool_versions` allow-list. -/
def cool_versions : List (String × String) :=
  [("oldtform", "old"), ("selectfrom", "new")]

/-- A candidate log file: its directory-listing name and its lines
    (without trailing newlines). -/
structure LogFile where
  name : String
  content : List String
deriving DecidableEq, Repr

/-- The net effect of one file on the dataset, computed before merging.
    The imperative source interleaves dict mutation with parsing, but a
    fatal parse error kills the process, so the partially-mutated dict is
    never observable; on success the net effect is exactly this record. -/
structure UpdateSpec where
  source : String
  version : String
  commit : Option String
  size_gb : ℚ
  path : String
  writes : List (String × ℚ)
deriving DecidableEq, Repr

/-- Analysis of a single file, following the source order: resolve the
    name (`bad file name` → skip), look up `file_paths[source_file]`
    (a missing source is a `KeyError` — this happens *before* the
    allow-list check), skip variants not in `cool_versions`, then scan the
    content.  `stat` is the external `os.stat(path).st_size` oracle. -/
def analyzeFile (stat : String → Nat) (f : LogFile) : Except String (Option UpdateSpec) :=
  match resolveFile f.name with
  | none => .ok none
  | some id =>
    match lookupA filePaths id.src.asString with
    | none => .error ("KeyError: " ++ id.src.asString)
    | some path =>
      if (lookupA cool_versions id.version.asString).isSome then
        match parseLines id.ftype.asString f.name false f.content with
        | .error e => .error e
        | .ok ws =>
          .ok (some ⟨id.src.asString, id.version.asString, id.commit.map List.asString,
            (stat path : ℚ) / 1024 ^ 3, path, ws⟩)
      else .ok none

/-- Get-or-create the run entry (`version`/`commit` only on creation), then
    apply the metric writes field-by-field. -/
def mergeRun (u : UpdateSpec) (cur : Option RunData) : RunData :=
  let run : RunData :=
    match cur with
    | some r => r
    | none => ⟨u.version, u.commit, fun _ => none⟩
  ⟨run.version, run.commit, applyWrites run.metrics u.writes⟩

/-- Get-or-create the source entry (`size_gb`/`path` only on creation) and
    merge the run for `u.version` into it. -/
def mergeSD (u : UpdateSpec) (cur : Option SourceData) : SourceData :=
  let sd : SourceData :=
    match cur with
    | some sd => sd
    | none => ⟨u.size_gb, u.path, fun _ => none⟩
  ⟨sd.size_gb, sd.path, updf sd.transforms u.version (mergeRun u (sd.transforms u.version))⟩

/-- Merge one file's effect into the dataset (the dict mutations of the
    loop body, lines 99-158 of the source). -/
def applyUpdate (u : UpdateSpec) (d : Dataset) : Dataset :=
  updf d u.source (mergeSD u (d u.source))

/-- Process one file of the ingestion loop body. -/
def processFile (stat : String → Nat) (f : LogFile) (d : Dataset) : Except String Dataset :=
  match analyzeFile stat f with
  | .error e => .error e
  | .ok none => .ok d
  | .ok (some u) => .ok (applyUpdate u d)

/-- The ingestion loop over the globbed files: a raised exception aborts
    the whole pass. -/
def ingestFiles (stat : String → Nat) : List LogFile → Dataset → Except String Dataset
  | [], d => .ok d
  | f :: fs, d =>
    match processFile stat f d with
    | .error e => .error e
    | .ok d2 => ingestFiles stat fs d2

/-- The initial empty `data` dict. -/
def emptyDataset : Dataset := fun _ => none

/-- The run recorded for a (source, variant) pair, if the pass succeeded. -/
def runAt (res : Except String Dataset) (s v : String) : Option RunData :=
  match res with
  | .error _ => none
  | .ok d =>
    match d s with
    | none => none
    | some sd => sd.transforms v

/-- The `commit` entry of the run at a (source, variant) pair. -/
def commitAt (res : Except String Dataset) (s v : String) : Option (Option String) :=
  (runAt res s v).map fun r => r.commit

/-- A constant size oracle used for concrete evaluations. -/
def statZero : String → Nat := fun _ => 0

/-! ## Order-independence vocabulary (claim C9) -/

/-- The successful update computed for a file, if any. -/
def updateOf (stat : String → Nat) (f : LogFile) : Option UpdateSpec :=
  match analyzeFile stat f with
  | .ok (some u) => some u
  | _ => none

/-- Same (source, variant) identity key. -/
def sameKey (u v : UpdateSpec) : Bool :=
  u.source == v.source && u.version == v.version

/-- The metric-field names a file writes. -/
def writeKeys (u : UpdateSpec) : List String :=
  u.writes.map Prod.fst

/-- No common element. -/
def disjointKeys (a b : List String) : Bool :=
  a.all fun k => decide (k ∉ b)

/-- The hypothesis of claim C9 exactly as stated: no two files assign a
    value to the same metric field for the same (source, variant) key. -/
def fieldCompat (stat : String → Nat) (f g : LogFile) : Bool :=
  match updateOf stat f, updateOf stat g with
  | some u, some v => !sameKey u v || disjointKeys (writeKeys u) (writeKeys v)
  | _, _ => true

/-- The amended per-update compatibility: same (source, variant) key forces
    disjoint metric fields and an identical revision. -/
def compatU (u v : UpdateSpec) : Bool :=
  !sameKey u v || (disjointKeys (writeKeys u) (writeKeys v) && u.commit == v.commit)

/-- The amended compatibility: additionally to the claim's condition, two
    files for the same (source, variant) key must carry the same revision,
    because the run's `commit` entry is taken from whichever file created
    the run first. -/
def fullCompat (stat : String → Nat) (f g : LogFile) : Bool :=
  match updateOf stat f, updateOf stat g with
  | some u, some v => compatU u v
  | _, _ => true

/-- Whether analysis of a file succeeds (it can only fail through a
    `KeyError` on `file_paths`, the never-started `Exception`, or a
    `ValueError` during numeric conversion — all independent of the
    dataset). -/
def analyzeOk (stat : String → Nat) (f : LogFile) : Bool :=
  match analyzeFile stat f with
  | .ok _ => true
  | .error _ => false

/-! ## Cross-Variant Comparator (the plotting section's ratio bars)

The plotting loop reads exactly the keys `wall_clock_time`, `user_time`,
`system_time`, `max_rss` (plus the keys of the empty `syscalls` table)
from every allow-listed run, so a comparator input is a run with all four
metrics present. -/

/-- The four metrics the plotting section reads from a run dict. -/
structure RunMetrics where
  wall_clock_time : ℚ
  user_time : ℚ
  system_time : ℚ
  max_rss : ℚ
deriving DecidableEq, Repr

/-- `max(run[key] for run in versions.values())`.  The empty case is
    unreachable in the plotting loop (the maxima are computed while
    iterating a member of `versions`). -/
def maxMetric (runs : List (String × RunMetrics)) (get : RunMetrics → ℚ) : ℚ :=
  match runs.map fun p => get p.2 with
  | [] => 0
  | x :: xs => xs.foldl max x

/-- One plotted bar: the metric it shows, the plotted ratio, and the
    absolute value attached by `plt.bar_label` when that call is present
    (it is commented out for `user_time` and `system_time`). -/
structure Bar where
  metricName : String
  ratioVal : ℚ
  labelVal : Option ℚ
deriving DecidableEq, Repr

/-- The bars the plotting section draws for one run `r` of the allow-listed
    `runs`: `wall_clock_time`, `user_time` and `system_time` are all
    divided by `maxs['wall_clock_time']` (only the first carries a
    `bar_label`), `max_rss` is divided by `maxs['max_rss']` (with a
    `bar_label`).  The `syscalls` table is empty, so no further bars. -/
def runBars (runs : List (String × RunMetrics)) (r : RunMetrics) : List Bar :=
  [⟨"wall_clock_time", r.wall_clock_time / maxMetric runs (fun q => q.wall_clock_time),
      some r.wall_clock_time⟩,
   ⟨"user_time", r.user_time / maxMetric runs (fun q => q.wall_clock_time), none⟩,
   ⟨"system_time", r.system_time / maxMetric runs (fun q => q.wall_clock_time), none⟩,
   ⟨"max_rss", r.max_rss / maxMetric runs (fun q => q.max_rss), some r.max_rss⟩]

/-- Spec-side vocabulary: the value a run holds for a metric name. -/
def metricGet (m : String) (r : RunMetrics) : ℚ :=
  if m = "wall_clock_time" then r.wall_clock_time
  else if m = "user_time" then r.user_time
  else if m = "system_time" then r.system_time
  else if m = "max_rss" then r.max_rss
  else 0

/-- The ratio plotted for metric `m` of run `r`. -/
def ratioFor (runs : List (String × RunMetrics)) (r : RunMetrics) (m : String) : Option ℚ :=
  ((runBars runs r).find? fun b => b.metricName == m).map fun b => b.ratioVal

/-- Multiply a run's value for one named metric by a constant. -/
def scaleMetric (m : String) (c : ℚ) (r : RunMetrics) : RunMetrics :=
  ⟨if m = "wall_clock_time" then c * r.wall_clock_time else r.wall_clock_time,
   if m = "user_time" then c * r.user_time else r.user_time,
   if m = "system_time" then c * r.system_time else r.system_time,
   if m = "max_rss" then c * r.max_rss else r.max_rss⟩

/-- Multiply every run's value for one named metric by a constant. -/
def scaleRuns (m : String) (c : ℚ) (runs : List (String × RunMetrics)) :
    List (String × RunMetrics) :=
  runs.map fun p => (p.1, scaleMetric m c p.2)

/-- `M` is the maximum of the list. -/
def isMaxOf (M : ℚ) (l : List ℚ) : Prop :=
  M ∈ l ∧ ∀ x ∈ l, x ≤ M

/-- A resolved identity is canonical for the lazy/greedy search order: when
    no commit was captured, the version cannot be split (after a nonempty
    prefix) into `...-<7 lowercase alphanumerics>` — the matcher would have
    preferred that split. -/
def Canonical (id : FileId) : Prop :=
  id.commit = none → ∀ q u, id.version = q ++ '-' :: u → q ≠ [] →
    ¬(u.length = 7 ∧ u.all isLowerAlnum = true)

/-! ## Concrete example inputs used to evaluate the model -/

/-- A DurationResource file containing only the start marker line. -/
def c3file : LogFile :=
  ⟨"oldtform-abc1234_bad-aspect-old.bim.usrtime", ["\tCommand being timed: transform"]⟩

/-- The net effect of `c3file`: a run entry with no metric writes. -/
def c3update : UpdateSpec :=
  ⟨"bad-aspect-old.bim", "oldtform", some "abc1234",
    ((statZero "/home/mike/work/bad-aspect-old.bim" : Nat) : ℚ) / 1024 ^ 3,
    "/home/mike/work/bad-aspect-old.bim", []⟩

/-- A DurationResource observation for (Juergen..., oldtform) at revision
    `abc1234`, writing only `user_time`. -/
def c9fileA : LogFile :=
  ⟨"oldtform-abc1234_Juergen.Hofer.Bad.Normals.bim.usrtime",
    ["\tCommand being timed: old transform", "\tUser time (seconds): 1.5"]⟩

/-- A SyscallTiming observation for the same (source, variant) key but at a
    different revision `def5678`; it writes no metric fields (the `syscalls`
    table is empty). -/
def c9fileB : LogFile :=
  ⟨"oldtform-def5678_Juergen.Hofer.Bad.Normals.bim.strace",
    ["% time     seconds  usecs/call     calls    errors syscall"]⟩

/-- A SyscallTiming observation agreeing with `c9fileA`'s revision. -/
def c9fileC : LogFile :=
  ⟨"oldtform-abc1234_Juergen.Hofer.Bad.Normals.bim.strace",
    ["% time     seconds  usecs/call     calls    errors syscall"]⟩

/-- Two example comparator runs with equal wall-clock times and distinct
    user times. -/
def exRunA : RunMetrics := ⟨10, 1, 2, 5⟩

/-- Second comparator run. -/
def exRunB : RunMetrics := ⟨10, 4, 2, 5⟩

/-- The allow-listed run list built from the example runs. -/
def exRuns : List (String × RunMetrics) := [("oldtform", exRunA), ("selectfrom", exRunB)]

/-! ## Resolver metatheory -/

theorem append_cons_sep_unique (sep : Char) :
    ∀ a c b d : List Char, a ++ sep :: b = c ++ sep :: d →
      (∀ x ∈ a, x ≠ sep) → (∀ x ∈ c, x ≠ sep) → a = c ∧ b = d := by
  intro a
  induction a with
  | nil =>
    intro c b d h _ hc
    cases c with
    | nil => simpa using h
    | cons c0 c' =>
      simp only [List.nil_append, List.cons_append, List.cons.injEq] at h
      exact absurd h.1.symm (hc c0 (by simp))
  | cons a0 a' ih =>
    intro c b d h ha hc
    cases c with
    | nil =>
      simp only [List.nil_append, List.cons_append, List.cons.injEq] at h
      exact absurd h.1 (ha a0 (by simp))
    | cons c0 c' =>
      simp only [List.cons_append, List.cons.injEq] at h
      obtain ⟨h0, h1⟩ := h
      obtain ⟨he, hb⟩ := ih c' b d h1 (fun x hx => ha x (by simp [hx]))
        (fun x hx => hc x (by simp [hx]))
      exact ⟨by rw [h0, he], hb⟩

theorem matchTy_sound {cs t : List Char} (h : matchTy cs = some t) :
    t = "usrtime".toList ∨ t = "strace".toList := by
  unfold matchTy at h
  split at h
  · exact Or.inl (Option.some.inj h).symm
  · split at h
    · exact Or.inr (Option.some.inj h).symm
    · exact absurd h (by simp)

theorem matchClose_sound {cs t : List Char} (h : matchClose cs = some t) :
    t = "usrtime".toList ∨ t = "strace".toList := by
  unfold matchClose at h
  split at h
  · exact matchTy_sound h
  · exact absurd h (by simp)

theorem srcCont_sound :
    ∀ {cs a t : List Char}, srcCont cs = some (a, t) →
      (∀ c ∈ a, c ≠ '\n') ∧ (t = "usrtime".toList ∨ t = "strace".toList) := by
  intro cs
  induction cs with
  | nil => intro a t h; simp [srcCont] at h
  | cons c cs ih =>
    intro a t h
    rw [srcCont] at h
    split at h
    · next r heq =>
      rw [(Option.some.inj h : r = (a, t))] at heq
      by_cases hc : c = '\n'
      · simp [hc] at heq
      · simp only [hc, if_false, ite_false] at heq
        obtain ⟨⟨a', t'⟩, hsc, heq2⟩ := Option.map_eq_some'.mp heq
        obtain ⟨ha, ht⟩ := Prod.mk.injEq .. ▸ heq2
        subst ht
        obtain ⟨hn, hty⟩ := ih hsc
        refine ⟨?_, hty⟩
        intro x hx
        rw [← ha] at hx
        rcases List.mem_cons.mp hx with rfl | hx
        · exact hc
        · exact hn x hx
    · next heq =>
      obtain ⟨t', hmc, heq2⟩ := Option.map_eq_some'.mp h
      obtain ⟨ha, ht⟩ := Prod.mk.injEq .. ▸ heq2
      subst ht
      exact ⟨by rw [← ha]; simp, matchClose_sound hmc⟩

theorem srcCont_complete :
    ∀ (a t : List Char), (∀ c ∈ a, c ≠ '\n') →
      (t = "usrtime".toList ∨ t = "strace".toList) →
      srcCont (a ++ '.' :: 'b' :: 'i' :: 'm' :: '.' :: t) = some (a, t) := by
  intro a
  induction a with
  | nil =>
    intro t _ ht
    rcases ht with rfl | rfl <;> decide
  | cons c a' ih =>
    intro t hn ht
    have hc : c ≠ '\n' := hn c (by simp)
    have ih2 := ih t (fun x hx => hn x (by simp [hx])) ht
    rw [List.cons_append, srcCont, if_neg hc, ih2]
    rfl

theorem matchSrcType_sound {cs s t : List Char} (h : matchSrcType cs = some (s, t)) :
    (∃ x, s = x ++ ['.', 'b', 'i', 'm'] ∧ x ≠ [] ∧ ∀ c ∈ x, c ≠ '\n') ∧
      (t = "usrtime".toList ∨ t = "strace".toList) := by
  cases cs with
  | nil => simp [matchSrcType] at h
  | cons c cs =>
    rw [matchSrcType] at h
    by_cases hc : c = '\n'
    · simp [hc] at h
    · rw [if_neg hc] at h
      obtain ⟨⟨a, t'⟩, hsc, heq⟩ := Option.map_eq_some'.mp h
      obtain ⟨hs, ht⟩ := Prod.mk.injEq .. ▸ heq
      subst ht
      obtain ⟨hna, hty⟩ := srcCont_sound hsc
      refine ⟨⟨c :: a, by rw [← hs], by simp, ?_⟩, hty⟩
      intro x hx
      rcases List.mem_cons.mp hx with rfl | hx
      · exact hc
      · exact hna x hx

theorem matchSrcType_complete (x t : List Char) (hx : x ≠ []) (hn : ∀ c ∈ x, c ≠ '\n')
    (ht : t = "usrtime".toList ∨ t = "strace".toList) :
    matchSrcType ((x ++ ['.', 'b', 'i', 'm']) ++ '.' :: t) =
      some (x ++ ['.', 'b', 'i', 'm'], t) := by
  cases x with
  | nil => exact absurd rfl hx
  | cons c x' =>
    have hc : c ≠ '\n' := hn c (by simp)
    have h2 := srcCont_complete x' t (fun a ha => hn a (by simp [ha])) ht
    have hshape : ((c :: x') ++ ['.', 'b', 'i', 'm']) ++ '.' :: t =
        c :: (x' ++ '.' :: 'b' :: 'i' :: 'm' :: '.' :: t) := by simp
    rw [hshape, matchSrcType, if_neg hc, h2]
    simp

theorem tryCommit_sound {cs : List Char} {co : Option (List Char)} {s t : List Char}
    (h : tryCommit cs = some (co, s, t)) :
    ∃ c7 rest, co = some c7 ∧ cs = '-' :: (c7 ++ '_' :: rest) ∧ c7.length = 7 ∧
      c7.all isLowerAlnum = true ∧ matchSrcType rest = some (s, t) := by
  cases cs with
  | nil => simp [tryCommit] at h
  | cons c0 rest =>
    rw [tryCommit] at h
    split at h
    · next hcond =>
      obtain ⟨hh, hlen, hall, hget⟩ := hcond
      have hc0 : c0 = '-' := by simpa using hh
      simp only [List.tail_cons] at hlen hall hget h
      obtain ⟨⟨s', t'⟩, hm, heq⟩ := Option.map_eq_some'.mp h
      obtain ⟨hco, hst⟩ := Prod.mk.injEq .. ▸ heq
      obtain ⟨hs, ht⟩ := Prod.mk.injEq .. ▸ hst
      subst hs; subst ht
      have h7 : 7 < rest.length := (List.getElem?_eq_some.mp hget).1
      refine ⟨rest.take 7, rest.drop 8, hco.symm, ?_, ?_, hall, hm⟩
      · rw [hc0]
        have hd7 : rest.drop 7 = '_' :: rest.drop 8 := by
          rw [List.drop_eq_getElem_cons h7]
          obtain ⟨hb, hv⟩ := List.getElem?_eq_some.mp hget
          rw [hv]
        conv_lhs => rw [← List.take_append_drop 7 rest]
        rw [hd7]
      · rw [List.length_take]; omega
    · exact absurd h (by simp)

theorem tryCommit_complete (c7 rest : List Char) (h7 : c7.length = 7)
    (hall : c7.all isLowerAlnum = true) :
    tryCommit ('-' :: (c7 ++ '_' :: rest)) =
      (matchSrcType rest).map fun p => (some c7, p.1, p.2) := by
  have ht : (c7 ++ '_' :: rest).take 7 = c7 := List.take_left' h7
  have hd : (c7 ++ '_' :: rest).drop 8 = rest := by
    have hsh : c7 ++ '_' :: rest = (c7 ++ ['_']) ++ rest := by simp
    rw [hsh, List.drop_left']
    simp [h7]
  rw [tryCommit, if_pos]
  · simp only [List.tail_cons, ht, hd]
  · refine ⟨by simp, by simp; omega, ?_, ?_⟩
    · simp only [List.tail_cons, ht, hall]
    · simp only [List.tail_cons]
      rw [List.getElem?_append_right (by omega)]
      simp [h7]

theorem afterVersion_plain {cs : List Char} {s t : List Char}
    (h : afterVersion cs = some (none, s, t)) :
    tryCommit cs = none ∧ ∃ rest, cs = '_' :: rest ∧ matchSrcType rest = some (s, t) := by
  unfold afterVersion at h
  split at h
  · next r heq =>
    rw [Option.some.inj h] at heq
    obtain ⟨c7, rest, hco, _⟩ := tryCommit_sound heq
    exact absurd hco (by simp)
  · next heq =>
    refine ⟨heq, ?_⟩
    split at h
    · next rest =>
      obtain ⟨⟨s', t'⟩, hm, heq2⟩ := Option.map_eq_some'.mp h
      obtain ⟨hco, hst⟩ := Prod.mk.injEq .. ▸ heq2
      obtain ⟨hs, ht⟩ := Prod.mk.injEq .. ▸ hst
      subst hs; subst ht
      exact ⟨rest, rfl, hm⟩
    · exact absurd h (by simp)

theorem afterVersion_commit {cs : List Char} {c7 s t : List Char}
    (h : afterVersion cs = some (some c7, s, t)) :
    ∃ rest, cs = '-' :: (c7 ++ '_' :: rest) ∧ c7.length = 7 ∧ c7.all isLowerAlnum = true ∧
      matchSrcType rest = some (s, t) := by
  unfold afterVersion at h
  split at h
  · next r heq =>
    rw [Option.some.inj h] at heq
    obtain ⟨c7', rest, hco, hcs, h7, hall, hm⟩ := tryCommit_sound heq
    rw [(Option.some.inj hco : c7 = c7')]
    exact ⟨rest, hcs, h7, hall, hm⟩
  · next heq =>
    split at h
    · obtain ⟨⟨s', t'⟩, hm, heq2⟩ := Option.map_eq_some'.mp h
      obtain ⟨hco, _⟩ := Prod.mk.injEq .. ▸ heq2
      exact absurd hco (by simp)
    · exact absurd h (by simp)

theorem afterVersion_commit_complete (c7 rest s t : List Char) (h7 : c7.length = 7)
    (hall : c7.all isLowerAlnum = true) (hm : matchSrcType rest = some (s, t)) :
    afterVersion ('-' :: (c7 ++ '_' :: rest)) = some (some c7, s, t) := by
  unfold afterVersion
  rw [tryCommit_complete c7 rest h7 hall, hm]
  rfl

theorem afterVersion_plain_complete (rest s t : List Char)
    (hm : matchSrcType rest = some (s, t)) :
    afterVersion ('_' :: rest) = some (none, s, t) := by
  unfold afterVersion
  have htc : tryCommit ('_' :: rest) = none := by
    rw [tryCommit, if_neg]
    rintro ⟨hh, _⟩
    simp at hh
  rw [htc]
  show (matchSrcType rest).map _ = _
  rw [hm]
  rfl

theorem tryCommit_eq_none (pre tail : List Char) (hpre : pre ≠ [])
    (hnu : ∀ c ∈ pre, c ≠ '_')
    (hcan : ∀ u, pre = '-' :: u → ¬(u.length = 7 ∧ u.all isLowerAlnum = true)) :
    tryCommit (pre ++ '_' :: tail) = none := by
  rw [tryCommit, if_neg]
  rintro ⟨hh, hlen, hall, hget⟩
  cases pre with
  | nil => exact hpre rfl
  | cons p0 pre' =>
    have hp0 : p0 = '-' := by simpa using hh
    simp only [List.cons_append, List.tail_cons] at hlen hall hget
    have h7 : 7 < (pre' ++ '_' :: tail).length := (List.getElem?_eq_some.mp hget).1
    have hsplit : (pre' ++ '_' :: tail).take 7 ++ '_' :: (pre' ++ '_' :: tail).drop 8 =
        pre' ++ '_' :: tail := by
      conv_rhs => rw [← List.take_append_drop 7 (pre' ++ '_' :: tail)]
      have hd7 : (pre' ++ '_' :: tail).drop 7 = '_' :: (pre' ++ '_' :: tail).drop 8 := by
        rw [List.drop_eq_getElem_cons h7]
        obtain ⟨hb, hv⟩ := List.getElem?_eq_some.mp hget
        rw [hv]
      rw [hd7]
    have hnosep : ∀ x ∈ (pre' ++ '_' :: tail).take 7, x ≠ '_' := by
      intro x hx he
      have hax := List.all_eq_true.mp hall x hx
      subst he
      exact absurd hax (by decide)
    have hpre' : ∀ x ∈ pre', x ≠ '_' := fun x hx => hnu x (by simp [hx])
    obtain ⟨hq, _⟩ := append_cons_sep_unique '_' ((pre' ++ '_' :: tail).take 7) pre'
      ((pre' ++ '_' :: tail).drop 8) tail hsplit hnosep hpre'
    refine hcan pre' (by rw [hp0]) ⟨?_, ?_⟩
    · rw [← hq, List.length_take]; omega
    · rw [← hq]; exact hall

theorem afterVersion_eq_none (pre tail : List Char) (hpre : pre ≠ [])
    (hnu : ∀ c ∈ pre, c ≠ '_')
    (hcan : ∀ u, pre = '-' :: u → ¬(u.length = 7 ∧ u.all isLowerAlnum = true)) :
    afterVersion (pre ++ '_' :: tail) = none := by
  unfold afterVersion
  rw [tryCommit_eq_none pre tail hpre hnu hcan]
  cases pre with
  | nil => exact absurd rfl hpre
  | cons p0 pre' =>
    have hp0 : p0 ≠ '_' := hnu p0 (by simp)
    simp only [List.cons_append]
    split
    · next rest heq =>
      rw [List.cons.injEq] at heq
      exact absurd heq.1 hp0
    · rfl

theorem goVer_decomp :
    ∀ (cs p : List Char) (id : FileId), goVer p cs = some id →
      ∃ w cs2, cs = w ++ cs2 ∧ id.version = p ++ w ∧ (∀ c ∈ w, c ≠ '_') ∧
        afterVersion cs2 = some (id.commit, id.src, id.ftype) := by
  intro cs
  induction cs with
  | nil => intro p id h; simp [goVer] at h
  | cons c cs ih =>
    intro p id h
    rw [goVer] at h
    split at h
    · next co s t heq =>
      rw [← Option.some.inj h]
      exact ⟨[], c :: cs, by simp, by simp, by simp, heq⟩
    · next heq =>
      by_cases hc : c = '_'
      · rw [if_pos hc] at h; exact absurd h (by simp)
      · rw [if_neg hc] at h
        obtain ⟨w, cs2, hcs, hver, hw, hav⟩ := ih (p ++ [c]) id h
        refine ⟨c :: w, cs2, by simp [hcs], by simpa using hver, ?_, hav⟩
        intro x hx
        rcases List.mem_cons.mp hx with rfl | hx
        · exact hc
        · exact hw x hx

theorem goVer_canonical :
    ∀ (cs p : List Char) (id : FileId), goVer p cs = some id → id.commit = none →
      ∀ q u, id.version = q ++ '-' :: u → p.length ≤ q.length →
        ¬(u.length = 7 ∧ u.all isLowerAlnum = true) := by
  intro cs
  induction cs with
  | nil => intro p id h; simp [goVer] at h
  | cons c cs ih =>
    intro p id h hco q u hqu hlen
    rw [goVer] at h
    split at h
    · next co s t heq =>
      rintro ⟨h7, hall⟩
      rw [← Option.some.inj h] at hqu
      have := congrArg List.length hqu
      simp [List.length_append] at this
      omega
    · next heq =>
      by_cases hc : c = '_'
      · rw [if_pos hc] at h; exact absurd h (by simp)
      · rw [if_neg hc] at h
        rcases Nat.lt_or_ge q.length (p.length + 1) with hq | hq
        · have hqp : q.length = p.length := by omega
          rintro ⟨h7, hall⟩
          obtain ⟨w, cs2, hcs, hver, hw, hav⟩ := goVer_decomp cs (p ++ [c]) id h
          have heq3 : p ++ c :: w = q ++ '-' :: u := by
            have : (p ++ [c]) ++ w = q ++ '-' :: u := by rw [← hver, ← hqu]
            simpa using this
          obtain ⟨hpq, hcw⟩ := List.append_inj heq3 hqp.symm
          rw [List.cons.injEq] at hcw
          obtain ⟨hc1, hw1⟩ := hcw
          rw [hco] at hav
          obtain ⟨_, rest, hcs2, hms⟩ := afterVersion_plain hav
          have hsome : afterVersion (c :: cs) = some (some u, id.src, id.ftype) := by
            have hshape : c :: cs = '-' :: (u ++ '_' :: rest) := by
              rw [hc1, hcs, hw1, hcs2]
            rw [hshape]
            exact afterVersion_commit_complete u rest id.src id.ftype h7 hall hms
          rw [heq] at hsome
          exact absurd hsome (by simp)
        · exact ih (p ++ [c]) id h hco q u hqu (by simpa using hq)

theorem goVer_complete :
    ∀ (v' p X tail s t : List Char) (co : Option (List Char)),
      p ≠ [] → (∀ c ∈ v', c ≠ '_') →
      ((X = [] ∧ co = none) ∨
        (∃ c7, X = '-' :: c7 ∧ co = some c7 ∧ c7.length = 7 ∧ c7.all isLowerAlnum = true)) →
      matchSrcType tail = some (s, t) →
      (co = none → ∀ q u, p ++ v' = q ++ '-' :: u → q ≠ [] →
        ¬(u.length = 7 ∧ u.all isLowerAlnum = true)) →
      goVer p (v' ++ X ++ '_' :: tail) = some ⟨p ++ v', co, s, t⟩ := by
  intro v'
  induction v' with
  | nil =>
    intro p X tail s t co hp _ hX hm _
    rcases hX with ⟨rfl, rfl⟩ | ⟨c7, rfl, rfl, h7, hall⟩
    · simp only [List.nil_append, List.append_nil]
      rw [goVer, afterVersion_plain_complete tail s t hm]
    · simp only [List.nil_append, List.cons_append, List.append_nil]
      rw [goVer, afterVersion_commit_complete c7 tail s t h7 hall hm]
  | cons c v'' ih =>
    intro p X tail s t co hp hv hX hm hcan
    have hc : c ≠ '_' := hv c (by simp)
    have hshape : (c :: v'') ++ X ++ '_' :: tail = c :: (v'' ++ X ++ '_' :: tail) := by simp
    rw [hshape, goVer]
    have hnone : afterVersion (c :: (v'' ++ X ++ '_' :: tail)) = none := by
      have happ : c :: (v'' ++ X ++ '_' :: tail) = ((c :: v'') ++ X) ++ '_' :: tail := by simp
      rw [happ]
      apply afterVersion_eq_none
      · simp
      · intro x hx
        rcases List.mem_append.mp hx with hx | hx
        · exact hv x hx
        · rcases hX with ⟨rfl, _⟩ | ⟨c7, rfl, _, _, hall⟩
          · simp at hx
          · rcases List.mem_cons.mp hx with rfl | hx
            · decide
            · intro he
              have hax := List.all_eq_true.mp hall x hx
              subst he
              exact absurd hax (by decide)
      · intro u hu
        rintro ⟨h7u, hallu⟩
        rcases hX with ⟨rfl, hco⟩ | ⟨c7, rfl, hco, h7, hall⟩
        · refine hcan hco p u ?_ hp ⟨h7u, hallu⟩
          have : (c :: v'') = '-' :: u := by simpa using hu
          rw [this]
        · have hmem : '-' ∈ u := by
            have : c :: (v'' ++ '-' :: c7) = '-' :: u := by simpa using hu
            rw [List.cons.injEq] at this
            rw [← this.2]
            simp
          have hax := List.all_eq_true.mp hallu '-' hmem
          exact absurd hax (by decide)
    rw [hnone, if_neg hc]
    have hres := ih (p ++ [c]) X tail s t co (by simp) (fun x hx => hv x (by simp [hx])) hX hm
      (by
        intro hco q u hq hqne
        refine hcan hco q u ?_ hqne
        simpa using hq)
    rw [hres]
    simp

theorem resolveL_sound {l : List Char} {id : FileId} (h : resolveL l = some id) :
    id.version ≠ [] ∧ (∀ c ∈ id.version, c ≠ '_') ∧
      (∀ c7, id.commit = some c7 → c7.length = 7 ∧ c7.all isLowerAlnum = true) ∧
      (∃ x, id.src = x ++ ['.', 'b', 'i', 'm'] ∧ x ≠ [] ∧ ∀ c ∈ x, c ≠ '\n') ∧
      (id.ftype = "usrtime".toList ∨ id.ftype = "strace".toList) ∧ Canonical id := by
  cases l with
  | nil => simp [resolveL] at h
  | cons c cs =>
    rw [resolveL] at h
    by_cases hc : c = '_'
    · rw [if_pos hc] at h; exact absurd h (by simp)
    · rw [if_neg hc] at h
      obtain ⟨w, cs2, hcs, hver, hw, hav⟩ := goVer_decomp cs [c] id h
      have hm : ∃ rest, matchSrcType rest = some (id.src, id.ftype) := by
        cases hco : id.commit with
        | none =>
          rw [hco] at hav
          obtain ⟨_, rest, _, hm⟩ := afterVersion_plain hav
          exact ⟨rest, hm⟩
        | some c7 =>
          rw [hco] at hav
          obtain ⟨rest, _, _, _, hm⟩ := afterVersion_commit hav
          exact ⟨rest, hm⟩
      obtain ⟨rest, hm⟩ := hm
      obtain ⟨hsrc, hty⟩ := matchSrcType_sound hm
      refine ⟨by rw [hver]; simp, ?_, ?_, hsrc, hty, ?_⟩
      · rw [hver]
        intro x hx
        rcases List.mem_cons.mp (by simpa using hx) with rfl | hx2
        · exact hc
        · exact hw x hx2
      · intro c7 hc7
        rw [hc7] at hav
        obtain ⟨rest2, _, h7, hall, _⟩ := afterVersion_commit hav
        exact ⟨h7, hall⟩
      · intro hco q u hqu hq
        refine goVer_canonical cs [c] id h hco q u hqu ?_
        simpa using List.length_pos.mpr hq

theorem resolveL_complete (id : FileId) (hv : id.version ≠ [])
    (hvn : ∀ c ∈ id.version, c ≠ '_')
    (hc : ∀ c7, id.commit = some c7 → c7.length = 7 ∧ c7.all isLowerAlnum = true)
    (hs : ∃ x, id.src = x ++ ['.', 'b', 'i', 'm'] ∧ x ≠ [] ∧ ∀ c ∈ x, c ≠ '\n')
    (ht : id.ftype = "usrtime".toList ∨ id.ftype = "strace".toList)
    (hcan : Canonical id) :
    resolveL (rebuild id) = some id := by
  obtain ⟨ver, co, src, ty⟩ := id
  simp only at hv hvn hc hs ht
  obtain ⟨x, hsrc, hx, hxn⟩ := hs
  have hm : matchSrcType (src ++ '.' :: ty) = some (src, ty) := by
    rw [hsrc]
    exact matchSrcType_complete x ty hx hxn ht
  cases hver : ver with
  | nil => exact absurd hver hv
  | cons c0 v' =>
    subst hver
    have hc0 : c0 ≠ '_' := hvn c0 (by simp)
    cases hco : co with
    | none =>
      have hshape : rebuild ⟨c0 :: v', none, src, ty⟩ =
          c0 :: (v' ++ [] ++ '_' :: (src ++ '.' :: ty)) := by
        simp [rebuild]
      rw [hshape, resolveL, if_neg hc0]
      have := goVer_complete v' [c0] [] (src ++ '.' :: ty) src ty none (by simp)
        (fun a ha => hvn a (by simp [ha])) (Or.inl ⟨rfl, rfl⟩) hm
        (by
          intro _ q u hq hqne
          have hcan2 := hcan (by rw [hco]) q u (by simpa using hq) hqne
          exact hcan2)
      rw [this]
      simp
    | some c7 =>
      obtain ⟨h7, hall⟩ := hc c7 hco
      have hshape : rebuild ⟨c0 :: v', some c7, src, ty⟩ =
          c0 :: (v' ++ ('-' :: c7) ++ '_' :: (src ++ '.' :: ty)) := by
        simp [rebuild]
      rw [hshape, resolveL, if_neg hc0]
      have := goVer_complete v' [c0] ('-' :: c7) (src ++ '.' :: ty) src ty (some c7) (by simp)
        (fun a ha => hvn a (by simp [ha])) (Or.inr ⟨c7, rfl, rfl, h7, hall⟩) hm
        (by intro hab; exact absurd hab (by simp))
      rw [this]
      simp

theorem append_cons_sep_unique_last (sep : Char) (a c b d : List Char)
    (h : a ++ sep :: b = c ++ sep :: d)
    (hb : ∀ x ∈ b, x ≠ sep) (hd : ∀ x ∈ d, x ≠ sep) : a = c ∧ b = d := by
  have hrev : b.reverse ++ sep :: a.reverse = d.reverse ++ sep :: c.reverse := by
    have h2 := congrArg List.reverse h
    simpa [List.reverse_append] using h2
  obtain ⟨h1, h2⟩ := append_cons_sep_unique sep b.reverse d.reverse a.reverse c.reverse hrev
    (fun x hx => hb x (List.mem_reverse.mp hx))
    (fun x hx => hd x (List.mem_reverse.mp hx))
  exact ⟨List.reverse_injective h2, List.reverse_injective h1⟩

/-- Claim C6: the file name `oldtform-abc1234_data.bim.usrtime` resolves to
    variant `oldtform`, revision `abc1234`, source `data.bim` and the
    DurationResource dialect (`usrtime` suffix), while the underscore-free
    name `weird.file.usrtime` resolves to NotRecognized (no match). -/
theorem c6_identity_examples :
    resolveFile "oldtform-abc1234_data.bim.usrtime" =
      some ⟨"oldtform".toList, some "abc1234".toList, "data.bim".toList, "usrtime".toList⟩ ∧
    resolveFile "weird.file.usrtime" = none := by
  decide

/-- Claim C8: for every file name that the Identity Resolver resolves to a
    DurationResource identity, reconstructing a name from that identity
    (`<variant>[-<revision>]_<source>.<dialect suffix>`) and resolving the
    reconstructed name yields the same identity. -/
theorem c8_resolver_roundtrip (s : String) (id : FileId)
    (h : resolveFile s = some id) (hty : id.ftype = "usrtime".toList) :
    resolveFile (rebuildName id) = some id := by
  obtain ⟨h1, h2, h3, h4, h5, h6⟩ := resolveL_sound h
  show resolveL (rebuild id) = some id
  exact resolveL_complete id h1 h2 h3 h4 h5 h6

/-- Witness for C8 at the concrete name `oldtform-abc1234_data.bim.usrtime`. -/
theorem c8_resolver_roundtrip_witness :
    resolveFile (rebuildName ⟨"oldtform".toList, some "abc1234".toList,
      "data.bim".toList, "usrtime".toList⟩) =
      some ⟨"oldtform".toList, some "abc1234".toList, "data.bim".toList,
        "usrtime".toList⟩ :=
  c8_resolver_roundtrip "oldtform-abc1234_data.bim.usrtime"
    ⟨"oldtform".toList, some "abc1234".toList, "data.bim".toList, "usrtime".toList⟩
    (by decide) (by decide)

/-- Claim C10: a file name whose hyphenated suffix before the underscore is
    not exactly 7 lowercase alphanumerics still resolves successfully, with
    the whole hyphenated token absorbed into the variant and no revision
    captured. -/
theorem c10_revision_absorbed (p w x ty : List Char)
    (hp : ∀ c ∈ p, c ≠ '_') (hw : ∀ c ∈ w, c ≠ '_') (hwd : ∀ c ∈ w, c ≠ '-')
    (hx : x ≠ []) (hxn : ∀ c ∈ x, c ≠ '\n')
    (hty : ty = "usrtime".toList ∨ ty = "strace".toList)
    (hnot : ¬(w.length = 7 ∧ w.all isLowerAlnum = true)) :
    resolveL ((p ++ '-' :: w) ++ '_' :: ((x ++ ['.', 'b', 'i', 'm']) ++ '.' :: ty)) =
      some ⟨p ++ '-' :: w, none, x ++ ['.', 'b', 'i', 'm'], ty⟩ := by
  have hcan : Canonical ⟨p ++ '-' :: w, none, x ++ ['.', 'b', 'i', 'm'], ty⟩ := by
    intro _ q u hqu hq
    rintro ⟨h7u, hallu⟩
    have hnu : ∀ a ∈ u, a ≠ '-' := by
      intro a ha he
      have hax := List.all_eq_true.mp hallu a ha
      subst he
      exact absurd hax (by decide)
    obtain ⟨hpq, hwu⟩ := append_cons_sep_unique_last '-' p q w u (by simpa using hqu) hwd hnu
    exact hnot ⟨hwu ▸ h7u, hwu ▸ hallu⟩
  have hres := resolveL_complete ⟨p ++ '-' :: w, none, x ++ ['.', 'b', 'i', 'm'], ty⟩
    (by simp)
    (by
      intro a ha
      rcases List.mem_append.mp ha with ha2 | ha2
      · exact hp a ha2
      · rcases List.mem_cons.mp ha2 with rfl | ha3
        · decide
        · exact hw a ha3)
    (by intro c7 hc7; exact absurd hc7 (by simp))
    ⟨x, rfl, hx, hxn⟩ hty hcan
  simpa [rebuild] using hres

/-- Witness for C10 at the concrete 8-character-revision name
    `oldtform-abc12345_data.bim.usrtime`. -/
theorem c10_revision_absorbed_witness :
    resolveL (("oldtform".toList ++ '-' :: "abc12345".toList) ++
        '_' :: (("data".toList ++ ['.', 'b', 'i', 'm']) ++ '.' :: "usrtime".toList)) =
      some ⟨"oldtform".toList ++ '-' :: "abc12345".toList, none,
        "data".toList ++ ['.', 'b', 'i', 'm'], "usrtime".toList⟩ :=
  c10_revision_absorbed "oldtform".toList "abc12345".toList "data".toList "usrtime".toList
    (by decide) (by decide) (by decide) (by decide) (by decide) (Or.inl rfl) (by decide)

/-! ## Normalizer and parser claims -/

/-- Claim C2 (code bug): the wall-clock regex documents the format
    `(h:mm:ss or m:ss)` and the spec requires
    `timeToSeconds "1:02:03.0" = 3723.0`, but `src.count(':') == '2'`
    compares an `int` with the string `'2'` — always `False` in Python —
    so a two-colon duration takes the `(0, *src.split(':'))` branch and
    raises `ValueError` (four values unpacked into three); the one-colon
    branch still works. -/
theorem c2_two_colon_duration_raises :
    timeToSeconds "1:02:03.0" =
      .error "ValueError: cannot unpack 1:02:03.0 into h, m, s" ∧
    timeToSeconds "1:30.5" = .ok (181 / 2 : ℚ) := by
  constructor
  · decide
  · simp +decide [timeToSeconds, pyFloatL, splitOnChar, digitsToNat, isDigit, bind, Except.bind]
    norm_num

theorem parseLines_never_started (ftype fname : String) :
    ∀ lines : List String, (∀ l ∈ lines, startMatch ftype l = false) →
      parseLines ftype fname false lines = .error ("never started file " ++ fname) := by
  intro lines
  induction lines with
  | nil => intro _; rfl
  | cons l rest ih =>
    intro h
    have h0 : startMatch ftype l = false := h l (by simp)
    show parseLines ftype fname (startMatch ftype l) rest = _
    rw [h0]
    exact ih fun x hx => h x (by simp [hx])

/-- Claim C5: for a resolvable, allow-listed file whose content never
    reaches its dialect's start marker, the whole ingestion pass halts with
    an error identifying the file name (the remaining files are not
    processed), rather than the file merely being skipped. -/
theorem c5_missing_start_marker_fatal (stat : String → Nat) (f : LogFile)
    (fs : List LogFile) (d : Dataset) (id : FileId)
    (hres : resolveFile f.name = some id)
    (hpath : (lookupA filePaths id.src.asString).isSome = true)
    (hcool : (lookupA cool_versions id.version.asString).isSome = true)
    (hns : ∀ l ∈ f.content, startMatch id.ftype.asString l = false) :
    ingestFiles stat (f :: fs) d = .error ("never started file " ++ f.name) := by
  have hparse := parseLines_never_started id.ftype.asString f.name f.content hns
  have hana : analyzeFile stat f = .error ("never started file " ++ f.name) := by
    obtain ⟨path, hp⟩ := Option.isSome_iff_exists.mp hpath
    simp only [analyzeFile, hres, hp, hcool, hparse, if_true]
  simp only [ingestFiles, processFile, hana]

/-- Witness for C5: a single marker-free DurationResource file aborts the
    pass with its name in the error. -/
theorem c5_missing_start_marker_fatal_witness :
    ingestFiles statZero
      [⟨"oldtform_bad-aspect-old.bim.usrtime", ["no marker here"]⟩] emptyDataset =
      .error ("never started file " ++ "oldtform_bad-aspect-old.bim.usrtime") :=
  c5_missing_start_marker_fatal statZero
    ⟨"oldtform_bad-aspect-old.bim.usrtime", ["no marker here"]⟩ [] emptyDataset
    ⟨"oldtform".toList, none, "bad-aspect-old.bim".toList, "usrtime".toList⟩
    (by decide) (by decide) (by decide) (by decide)

/-- Claim C4 counterexample: `nicetry_unknown.bim.usrtime` resolves, its
    variant `nicetry` is not in the allow-list, yet ingestion raises a
    `KeyError` instead of skipping silently, because the
    `file_paths[source_file]` lookup precedes the allow-list check. -/
theorem c4_counterexample :
    resolveFile "nicetry_unknown.bim.usrtime" =
      some ⟨"nicetry".toList, none, "unknown.bim".toList, "usrtime".toList⟩ ∧
    lookupA cool_versions "nicetry" = none ∧
    ingestFiles statZero [⟨"nicetry_unknown.bim.usrtime", []⟩] emptyDataset =
      .error "KeyError: unknown.bim" := by
  refine ⟨by decide, by decide, ?_⟩
  rfl

/-- Claim C4 amended: provided the source's `file_paths` lookup succeeds
    (it runs before the allow-list check), a resolved file whose variant is
    not allow-listed is skipped silently: no error, the dataset is not
    mutated, and ingestion continues with the remaining files. -/
theorem c4_skip_non_allowlisted (stat : String → Nat) (f : LogFile)
    (fs : List LogFile) (d : Dataset) (id : FileId)
    (hres : resolveFile f.name = some id)
    (hpath : (lookupA filePaths id.src.asString).isSome = true)
    (hcool : lookupA cool_versions id.version.asString = none) :
    processFile stat f d = .ok d ∧
      ingestFiles stat (f :: fs) d = ingestFiles stat fs d := by
  have hana : analyzeFile stat f = .ok none := by
    obtain ⟨path, hp⟩ := Option.isSome_iff_exists.mp hpath
    simp only [analyzeFile, hres, hp, hcool, Option.isSome_none, Bool.false_eq_true,
      if_false]
  constructor
  · simp only [processFile, hana]
  · simp only [ingestFiles, processFile, hana]

/-- Witness for C4 (amended) at a non-allow-listed variant over a known
    source. -/
theorem c4_skip_non_allowlisted_witness :
    processFile statZero ⟨"nicetry_bad-aspect-old.bim.usrtime", []⟩ emptyDataset =
      .ok emptyDataset ∧
    ingestFiles statZero [⟨"nicetry_bad-aspect-old.bim.usrtime", []⟩] emptyDataset =
      ingestFiles statZero [] emptyDataset :=
  c4_skip_non_allowlisted statZero ⟨"nicetry_bad-aspect-old.bim.usrtime", []⟩ []
    emptyDataset ⟨"nicetry".toList, none, "bad-aspect-old.bim".toList, "usrtime".toList⟩
    (by decide) (by decide) (by decide)

theorem applyWrites_of_not_mem :
    ∀ (ws : List (String × ℚ)) (m : String → Option ℚ) (k : String),
      (∀ w ∈ ws, w.1 ≠ k) → applyWrites m ws k = m k := by
  intro ws
  induction ws with
  | nil => intro m k _; rfl
  | cons w ws ih =>
    intro m k h
    show applyWrites (updf m w.1 w.2) ws k = m k
    rw [ih _ k fun x hx => h x (by simp [hx])]
    have hw : w.1 ≠ k := h w (by simp)
    simp [updf, Ne.symm hw]

/-- Claim C3 counterexample: a DurationResource file containing only the
    start marker (so `wall_clock_time` is never captured) is NOT excluded
    from the dataset: ingestion records a run entry for its
    (source, variant) key and continues. -/
theorem c3_counterexample :
    (runAt (ingestFiles statZero [c3file] emptyDataset)
      "bad-aspect-old.bim" "oldtform").isSome = true := by
  decide

/-- Claim C3 amended: a file whose analysis succeeds without ever writing
    `wall_clock_time` (e.g. a DurationResource file with the start marker
    but no statistic lines) is NOT excluded: its run entry is created in the
    dataset (with no `wall_clock_time` field and no diagnostic), and
    ingestion continues with the remaining files. -/
theorem c3_incomplete_capture_kept (stat : String → Nat) (f : LogFile)
    (fs : List LogFile) (d : Dataset) (u : UpdateSpec)
    (ha : analyzeFile stat f = .ok (some u))
    (hwall : ∀ w ∈ u.writes, w.1 ≠ "wall_clock_time")
    (hnew : runAt (.ok d) u.source u.version = none) :
    processFile stat f d = .ok (applyUpdate u d) ∧
      (runAt (.ok (applyUpdate u d)) u.source u.version).isSome = true ∧
      ((runAt (.ok (applyUpdate u d)) u.source u.version).bind
        fun r => r.metrics "wall_clock_time") = none ∧
      ingestFiles stat (f :: fs) d = ingestFiles stat fs (applyUpdate u d) := by
  have hmain : runAt (.ok (applyUpdate u d)) u.source u.version =
      some ⟨u.version, u.commit, applyWrites (fun _ => none) u.writes⟩ := by
    cases hd : d u.source with
    | none => simp [runAt, applyUpdate, mergeSD, mergeRun, updf, hd]
    | some sd0 =>
      have ht0 : sd0.transforms u.version = none := by
        simpa [runAt, hd] using hnew
      simp [runAt, applyUpdate, mergeSD, mergeRun, updf, hd, ht0]
  refine ⟨by simp only [processFile, ha], ?_, ?_, by simp only [ingestFiles, processFile, ha]⟩
  · rw [hmain]; rfl
  · rw [hmain]
    show applyWrites (fun _ => none) u.writes "wall_clock_time" = none
    rw [applyWrites_of_not_mem u.writes _ _ hwall]

/-- Witness for C3 (amended) at the marker-only file `c3file`. -/
theorem c3_incomplete_capture_kept_witness :
    processFile statZero c3file emptyDataset = .ok (applyUpdate c3update emptyDataset) ∧
      (runAt (.ok (applyUpdate c3update emptyDataset)) c3update.source
        c3update.version).isSome = true ∧
      ((runAt (.ok (applyUpdate c3update emptyDataset)) c3update.source
        c3update.version).bind fun r => r.metrics "wall_clock_time") = none ∧
      ingestFiles statZero [c3file] emptyDataset =
        ingestFiles statZero [] (applyUpdate c3update emptyDataset) :=
  c3_incomplete_capture_kept statZero c3file [] emptyDataset c3update rfl
    (by decide) rfl

/-! ## Order-independence of the ingestion pass (claim C9) -/

theorem updf_updf_same {α : Type} (m : String → Option α) (k : String) (a b : α) :
    updf (updf m k a) k b = updf m k b := by
  funext q
  by_cases h : q = k <;> simp [updf, h]

theorem updf_comm {α : Type} (m : String → Option α) (k k2 : String) (a b : α)
    (h : k ≠ k2) : updf (updf m k a) k2 b = updf (updf m k2 b) k a := by
  funext q
  by_cases h1 : q = k2 <;> by_cases h2 : q = k
  · exact absurd (h2.symm.trans h1) h
  all_goals simp [updf, h1, h2, h, Ne.symm h]

theorem applyWrites_updf_of_not_mem :
    ∀ (ws : List (String × ℚ)) (m : String → Option ℚ) (k : String) (a : ℚ),
      (∀ w ∈ ws, w.1 ≠ k) → applyWrites (updf m k a) ws = updf (applyWrites m ws) k a := by
  intro ws
  induction ws with
  | nil => intro m k a _; rfl
  | cons w ws ih =>
    intro m k a h
    show applyWrites (updf (updf m k a) w.1 w.2) ws = _
    rw [updf_comm m k w.1 a w.2 fun he => h w (by simp) he.symm]
    rw [ih _ k a fun x hx => h x (by simp [hx])]
    rfl

theorem applyWrites_comm :
    ∀ (a b : List (String × ℚ)) (m : String → Option ℚ),
      (∀ k ∈ a.map Prod.fst, k ∉ b.map Prod.fst) →
      applyWrites (applyWrites m a) b = applyWrites (applyWrites m b) a := by
  intro a
  induction a with
  | nil => intro b m _; rfl
  | cons w a ih =>
    intro b m h
    show applyWrites (applyWrites (updf m w.1 w.2) a) b = applyWrites (applyWrites m b) (w :: a)
    rw [ih b _ fun k hk => h k (by simp [hk])]
    have hw : ∀ z ∈ b, z.1 ≠ w.1 := by
      intro z hz he
      exact h w.1 (by simp) (by rw [← he]; exact List.mem_map_of_mem Prod.fst hz)
    rw [applyWrites_updf_of_not_mem b _ w.1 w.2 hw]
    rfl

theorem mergeTrans_comm (u v : UpdateSpec) (T : String → Option RunData)
    (hkey : u.version = v.version →
      u.commit = v.commit ∧ ∀ k ∈ writeKeys u, k ∉ writeKeys v) :
    updf (updf T v.version (mergeRun v (T v.version))) u.version
        (mergeRun u ((updf T v.version (mergeRun v (T v.version))) u.version)) =
      updf (updf T u.version (mergeRun u (T u.version))) v.version
        (mergeRun v ((updf T u.version (mergeRun u (T u.version))) v.version)) := by
  by_cases hver : u.version = v.version
  · obtain ⟨hcom, hdisj⟩ := hkey hver
    have hdisj2 : ∀ k ∈ v.writes.map Prod.fst, k ∉ u.writes.map Prod.fst := by
      intro k hk hk2
      exact hdisj k hk2 hk
    have e1 : (updf T v.version (mergeRun v (T v.version))) v.version
        = some (mergeRun v (T v.version)) := by simp [updf]
    have e2 : (updf T u.version (mergeRun u (T u.version))) u.version
        = some (mergeRun u (T u.version)) := by simp [updf]
    rw [hver] at e2 ⊢
    rw [e1, e2, updf_updf_same, updf_updf_same]
    have hrun : mergeRun u (some (mergeRun v (T v.version))) =
        mergeRun v (some (mergeRun u (T v.version))) := by
      cases ht : T v.version with
      | some r0 =>
        show (⟨r0.version, r0.commit,
            applyWrites (applyWrites r0.metrics v.writes) u.writes⟩ : RunData) =
          ⟨r0.version, r0.commit, applyWrites (applyWrites r0.metrics u.writes) v.writes⟩
        rw [applyWrites_comm v.writes u.writes r0.metrics hdisj2]
      | none =>
        show (⟨v.version, v.commit,
            applyWrites (applyWrites (fun _ => none) v.writes) u.writes⟩ : RunData) =
          ⟨u.version, u.commit, applyWrites (applyWrites (fun _ => none) u.writes) v.writes⟩
        rw [applyWrites_comm v.writes u.writes _ hdisj2, hver, hcom]
    rw [hrun]
  · have e3 : (updf T v.version (mergeRun v (T v.version))) u.version = T u.version := by
      simp [updf, hver]
    have e4 : (updf T u.version (mergeRun u (T u.version))) v.version = T v.version := by
      simp [updf, Ne.symm hver]
    rw [e3, e4, updf_comm _ _ _ _ _ (Ne.symm hver)]

theorem mergeSD_comm (u v : UpdateSpec) (cur : Option SourceData)
    (hsz : u.size_gb = v.size_gb) (hpt : u.path = v.path)
    (hkey : u.version = v.version →
      u.commit = v.commit ∧ ∀ k ∈ writeKeys u, k ∉ writeKeys v) :
    mergeSD u (some (mergeSD v cur)) = mergeSD v (some (mergeSD u cur)) := by
  cases cur with
  | some sd0 =>
    show (⟨sd0.size_gb, sd0.path, _⟩ : SourceData) = ⟨sd0.size_gb, sd0.path, _⟩
    congr 1
    exact mergeTrans_comm u v sd0.transforms hkey
  | none =>
    show (⟨v.size_gb, v.path, _⟩ : SourceData) = ⟨u.size_gb, u.path, _⟩
    rw [hsz, hpt]
    congr 1
    exact mergeTrans_comm u v (fun _ => none) hkey

theorem applyUpdate_self (u : UpdateSpec) (d : Dataset) :
    applyUpdate u d u.source = some (mergeSD u (d u.source)) := by
  simp [applyUpdate, updf]

theorem applyUpdate_other (u : UpdateSpec) (d : Dataset) (q : String) (h : q ≠ u.source) :
    applyUpdate u d q = d q := by
  simp [applyUpdate, updf, h]

theorem applyUpdate_comm (u v : UpdateSpec) (d : Dataset)
    (hsrc : u.source = v.source → u.size_gb = v.size_gb ∧ u.path = v.path)
    (hkey : u.source = v.source → u.version = v.version →
      u.commit = v.commit ∧ ∀ k ∈ writeKeys u, k ∉ writeKeys v) :
    applyUpdate u (applyUpdate v d) = applyUpdate v (applyUpdate u d) := by
  funext q
  by_cases hs : u.source = v.source
  · obtain ⟨hsz, hpt⟩ := hsrc hs
    by_cases hq : q = u.source
    · have hqv : q = v.source := hq.trans hs
      have r1 : applyUpdate v d q = some (mergeSD v (d q)) := by
        rw [hqv]; exact applyUpdate_self v d
      calc applyUpdate u (applyUpdate v d) q
          = some (mergeSD u (applyUpdate v d q)) := by rw [hq]; exact applyUpdate_self u _
        _ = some (mergeSD u (some (mergeSD v (d q)))) := by rw [r1]
        _ = some (mergeSD v (some (mergeSD u (d q)))) := by
              rw [mergeSD_comm u v (d q) hsz hpt (hkey hs)]
        _ = some (mergeSD v (applyUpdate u d q)) := by rw [hq, applyUpdate_self u d]
        _ = applyUpdate v (applyUpdate u d) q := by
              rw [hqv]; exact (applyUpdate_self v _).symm
    · have hq2 : q ≠ v.source := fun h2 => hq (h2.trans hs.symm)
      rw [applyUpdate_other u _ q hq, applyUpdate_other v d q hq2,
        applyUpdate_other v _ q hq2, applyUpdate_other u d q hq]
  · by_cases hq : q = u.source
    · have hq2 : q ≠ v.source := fun h2 => hs (hq.symm.trans h2)
      calc applyUpdate u (applyUpdate v d) q
          = some (mergeSD u (applyUpdate v d q)) := by rw [hq]; exact applyUpdate_self u _
        _ = some (mergeSD u (d q)) := by rw [applyUpdate_other v d q hq2]
        _ = applyUpdate u d q := by rw [hq]; exact (applyUpdate_self u d).symm
        _ = applyUpdate v (applyUpdate u d) q := (applyUpdate_other v _ q hq2).symm
    · by_cases hq2 : q = v.source
      · calc applyUpdate u (applyUpdate v d) q
            = applyUpdate v d q := applyUpdate_other u _ q hq
          _ = some (mergeSD v (d q)) := by rw [hq2]; exact applyUpdate_self v d
          _ = some (mergeSD v (applyUpdate u d q)) := by rw [applyUpdate_other u d q hq]
          _ = applyUpdate v (applyUpdate u d) q := by
                rw [hq2]; exact (applyUpdate_self v _).symm
      · rw [applyUpdate_other u _ q hq, applyUpdate_other v d q hq2,
          applyUpdate_other v _ q hq2, applyUpdate_other u d q hq]

theorem analyzeFile_source_data (stat : String → Nat) (f : LogFile) (u : UpdateSpec)
    (h : analyzeFile stat f = .ok (some u)) :
    lookupA filePaths u.source = some u.path ∧ u.size_gb = (stat u.path : ℚ) / 1024 ^ 3 := by
  unfold analyzeFile at h
  split at h
  · exact absurd h (by simp)
  · next id =>
    split at h
    · exact absurd h (by simp)
    · next path hp =>
      split at h
      · split at h
        · exact absurd h (by simp)
        · next ws hws =>
          have hu := Option.some.inj (Except.ok.inj h)
          rw [← hu]
          exact ⟨by simpa using hp, rfl⟩
      · exact absurd h (by simp)

theorem updates_same_source (stat : String → Nat) (f g : LogFile) (u v : UpdateSpec)
    (hf : analyzeFile stat f = .ok (some u)) (hg : analyzeFile stat g = .ok (some v))
    (hs : u.source = v.source) : u.size_gb = v.size_gb ∧ u.path = v.path := by
  obtain ⟨hp1, hs1⟩ := analyzeFile_source_data stat f u hf
  obtain ⟨hp2, hs2⟩ := analyzeFile_source_data stat g v hg
  rw [hs, hp2] at hp1
  have hpp : u.path = v.path := (Option.some.inj hp1).symm
  exact ⟨by rw [hs1, hs2, hpp], hpp⟩

theorem compatU_key (u v : UpdateSpec) (hc : compatU u v = true)
    (hs : u.source = v.source) (hv : u.version = v.version) :
    u.commit = v.commit ∧ ∀ k ∈ writeKeys u, k ∉ writeKeys v := by
  unfold compatU at hc
  have hsk : sameKey u v = true := by
    simp [sameKey, hs, hv]
  rw [hsk] at hc
  simp only [Bool.not_true, Bool.false_or, Bool.and_eq_true, beq_iff_eq] at hc
  obtain ⟨hd, hcm⟩ := hc
  refine ⟨hcm, ?_⟩
  intro k hk
  exact of_decide_eq_true (List.all_eq_true.mp hd k hk)

theorem compatU_symm (u v : UpdateSpec) (h : compatU u v = true) :
    compatU v u = true := by
  unfold compatU at h ⊢
  by_cases hsk : sameKey v u = true
  · have hsk2 : sameKey u v = true := by
      simp only [sameKey, Bool.and_eq_true, beq_iff_eq] at hsk ⊢
      exact ⟨hsk.1.symm, hsk.2.symm⟩
    rw [hsk2] at h
    simp only [Bool.not_true, Bool.false_or, Bool.and_eq_true, beq_iff_eq] at h
    obtain ⟨hd, hcm⟩ := h
    rw [hsk]
    simp only [Bool.not_true, Bool.false_or, Bool.and_eq_true, beq_iff_eq]
    refine ⟨?_, hcm.symm⟩
    simp only [disjointKeys, List.all_eq_true, decide_eq_true_eq] at hd ⊢
    intro k hk hk2
    exact hd k hk2 hk
  · rw [Bool.not_eq_true] at hsk
    rw [hsk]
    rfl

theorem fullCompat_key (stat : String → Nat) (f g : LogFile) (u v : UpdateSpec)
    (hc : fullCompat stat f g = true)
    (hf : updateOf stat f = some u) (hg : updateOf stat g = some v)
    (hs : u.source = v.source) (hv : u.version = v.version) :
    u.commit = v.commit ∧ ∀ k ∈ writeKeys u, k ∉ writeKeys v := by
  unfold fullCompat at hc
  rw [hf, hg] at hc
  exact compatU_key u v hc hs hv

theorem fullCompat_symm (stat : String → Nat) (f g : LogFile)
    (h : fullCompat stat f g = true) : fullCompat stat g f = true := by
  unfold fullCompat at h ⊢
  cases hf : updateOf stat f with
  | none =>
    cases hg : updateOf stat g
    · rfl
    · rfl
  | some u =>
    cases hg : updateOf stat g with
    | none => rfl
    | some v =>
      rw [hf, hg] at h
      exact compatU_symm u v h

theorem ingest_swap (stat : String → Nat) (x y : LogFile) (l : List LogFile) (d : Dataset)
    (hx : analyzeOk stat x = true) (hy : analyzeOk stat y = true)
    (hcompat : fullCompat stat y x = true) :
    ingestFiles stat (y :: x :: l) d = ingestFiles stat (x :: y :: l) d := by
  cases hax : analyzeFile stat x with
  | error e => simp [analyzeOk, hax] at hx
  | ok ox =>
    cases hay : analyzeFile stat y with
    | error e => simp [analyzeOk, hay] at hy
    | ok oy =>
      cases ox with
      | none =>
        cases oy with
        | none => simp only [ingestFiles, processFile, hax, hay]
        | some v => simp only [ingestFiles, processFile, hax, hay]
      | some u =>
        cases oy with
        | none => simp only [ingestFiles, processFile, hax, hay]
        | some v =>
          simp only [ingestFiles, processFile, hax, hay]
          have hfu : updateOf stat x = some u := by rw [updateOf, hax]
          have hfv : updateOf stat y = some v := by rw [updateOf, hay]
          congr 1
          apply applyUpdate_comm
          · intro hs
            exact updates_same_source stat x y u v hax hay hs
          · intro hs hv
            obtain ⟨hcm, hdj⟩ := fullCompat_key stat y x v u hcompat hfv hfu hs.symm hv.symm
            refine ⟨hcm.symm, ?_⟩
            intro k hk hk2
            exact hdj k hk2 hk

theorem ingest_perm_aux (stat : String → Nat) :
    ∀ {l1 l2 : List LogFile}, l1.Perm l2 →
      (∀ f ∈ l1, analyzeOk stat f = true) →
      l1.Pairwise (fun f g => fullCompat stat f g = true) →
      ∀ d, ingestFiles stat l1 d = ingestFiles stat l2 d := by
  intro l1 l2 hperm
  induction hperm with
  | nil => intro _ _ d; rfl
  | cons z h ih =>
    intro hok hcompat d
    have ihh := ih (fun f hf => hok f (by simp [hf])) (List.Pairwise.of_cons hcompat)
    cases haz : analyzeFile stat z with
    | error e =>
      have hzz := hok z (by simp)
      simp [analyzeOk, haz] at hzz
    | ok oz =>
      cases oz with
      | none => simp only [ingestFiles, processFile, haz]; exact ihh _
      | some u => simp only [ingestFiles, processFile, haz]; exact ihh _
  | swap a b l =>
    intro hok hcompat d
    exact ingest_swap stat a b l d (hok a (by simp)) (hok b (by simp))
      ((List.pairwise_cons.mp hcompat).1 a (by simp))
  | trans h12 h23 ih1 ih2 =>
    intro hok hcompat d
    rw [ih1 hok hcompat d]
    exact ih2 (fun f hf => hok f (h12.mem_iff.mpr hf))
      ((h12.pairwise_iff fun {a b} hab => fullCompat_symm stat a b hab).mp hcompat) d

/-- Claim C9 amended: ingestion is order-independent provided, additionally
    to the claim's no-shared-metric-field condition, (a) every file
    processes without a fatal error and (b) any two files for the same
    (source, variant) key carry the same revision — the run's `commit`
    entry is taken from whichever file created the run first, so differing
    revisions make the result order-dependent. -/
theorem c9_order_invariant (stat : String → Nat) (l1 l2 : List LogFile) (d : Dataset)
    (hperm : l1.Perm l2)
    (hok : ∀ f ∈ l1, analyzeOk stat f = true)
    (hcompat : l1.Pairwise fun f g => fullCompat stat f g = true) :
    ingestFiles stat l1 d = ingestFiles stat l2 d :=
  ingest_perm_aux stat hperm hok hcompat d

/-- Witness for C9 (amended): two compatible files (same key, same revision,
    disjoint writes) ingest to the same dataset in either order. -/
theorem c9_order_invariant_witness :
    ingestFiles statZero [c9fileA, c9fileC] emptyDataset =
      ingestFiles statZero [c9fileC, c9fileA] emptyDataset :=
  c9_order_invariant statZero [c9fileA, c9fileC] [c9fileC, c9fileA] emptyDataset
    (List.Perm.swap c9fileC c9fileA []) (by decide) (by decide)

/-- Claim C9 counterexample: `c9fileA` and `c9fileB` write no common metric
    field for their shared (source, variant) key — the strace file writes
    nothing at all — yet the two ingestion orders produce different
    datasets: the run's `commit` entry comes from whichever file was seen
    first (`abc1234` vs `def5678`). -/
theorem c9_counterexample :
    List.Pairwise (fun f g => fieldCompat statZero f g = true) [c9fileA, c9fileB] ∧
    ingestFiles statZero [c9fileA, c9fileB] emptyDataset ≠
      ingestFiles statZero [c9fileB, c9fileA] emptyDataset := by
  constructor
  · decide
  · intro h
    have h1 : commitAt (ingestFiles statZero [c9fileA, c9fileB] emptyDataset)
        "Juergen.Hofer.Bad.Normals.bim" "oldtform" = some (some "abc1234") := by decide
    have h2 : commitAt (ingestFiles statZero [c9fileB, c9fileA] emptyDataset)
        "Juergen.Hofer.Bad.Normals.bim" "oldtform" = some (some "def5678") := by decide
    have hc := congrArg
      (fun r => commitAt r "Juergen.Hofer.Bad.Normals.bim" "oldtform") h
    simp only at hc
    rw [h1, h2] at hc
    exact absurd hc (by decide)

/-! ## Cross-Variant Comparator claims (C1, C7) -/

theorem foldl_max_isMax : ∀ (l : List ℚ) (x : ℚ), isMaxOf (l.foldl max x) (x :: l) := by
  intro l
  induction l with
  | nil => intro x; exact ⟨by simp, by simp⟩
  | cons y l ih =>
    intro x
    obtain ⟨hmem, hle⟩ := ih (max x y)
    constructor
    · show l.foldl max (max x y) ∈ x :: y :: l
      rcases List.mem_cons.mp hmem with he | hm
      · rcases max_choice x y with hc | hc
        · rw [he, hc]; simp
        · rw [he, hc]; simp
      · simp [hm]
    · intro z hz
      show z ≤ l.foldl max (max x y)
      rcases List.mem_cons.mp hz with h1 | hz2
      · rw [h1]
        exact le_trans (le_max_left x y) (hle (max x y) (by simp))
      · rcases List.mem_cons.mp hz2 with h2 | hz3
        · rw [h2]
          exact le_trans (le_max_right x y) (hle (max x y) (by simp))
        · exact hle z (by simp [hz3])

theorem maxMetric_isMax (runs : List (String × RunMetrics)) (get : RunMetrics → ℚ)
    (h : runs ≠ []) : isMaxOf (maxMetric runs get) (runs.map fun p => get p.2) := by
  cases runs with
  | nil => exact absurd rfl h
  | cons q qs =>
    show isMaxOf ((qs.map fun p => get p.2).foldl max (get q.2)) _
    exact foldl_max_isMax _ _

/-- Claim C1 counterexample: in a concrete pair of allow-listed runs, the
    user-time bar's plotted ratio is the value divided by the *wall-clock*
    maximum (1/10) rather than by the user-time maximum (1/4), and no
    absolute value is recorded for it. -/
theorem c1_counterexample :
    ¬ ∀ bar ∈ runBars exRuns exRunA,
        bar.ratioVal = metricGet bar.metricName exRunA /
          maxMetric exRuns (metricGet bar.metricName) ∧
        bar.labelVal = some (metricGet bar.metricName exRunA) := by
  intro h
  have hmem : (⟨"user_time",
      exRunA.user_time / maxMetric exRuns fun q => q.wall_clock_time, none⟩ : Bar) ∈
      runBars exRuns exRunA := by
    simp [runBars]
  have h2 := (h _ hmem).2
  exact Option.noConfusion h2

/-- Claim C1 amended: for every allow-listed run, four bars are plotted;
    the wall-clock and max-rss bars divide by the maximum of their own
    metric over the allow-listed runs and record the absolute value
    alongside, while the user-time and system-time bars divide by the
    *wall-clock* maximum and record no absolute value.  (The `syscalls`
    table is empty, so there are no further bars.) -/
theorem c1_ratio_bars (runs : List (String × RunMetrics)) (v : String) (r : RunMetrics)
    (h : (v, r) ∈ runs) :
    ∃ mWall mRss,
      isMaxOf mWall (runs.map fun p => p.2.wall_clock_time) ∧
      isMaxOf mRss (runs.map fun p => p.2.max_rss) ∧
      runBars runs r =
        [⟨"wall_clock_time", r.wall_clock_time / mWall, some r.wall_clock_time⟩,
         ⟨"user_time", r.user_time / mWall, none⟩,
         ⟨"system_time", r.system_time / mWall, none⟩,
         ⟨"max_rss", r.max_rss / mRss, some r.max_rss⟩] := by
  have hne : runs ≠ [] := by rintro rfl; simp at h
  exact ⟨_, _, maxMetric_isMax runs _ hne, maxMetric_isMax runs _ hne, rfl⟩

/-- Witness for C1 (amended) at the concrete example runs. -/
theorem c1_ratio_bars_witness :
    ∃ mWall mRss,
      isMaxOf mWall (exRuns.map fun p => p.2.wall_clock_time) ∧
      isMaxOf mRss (exRuns.map fun p => p.2.max_rss) ∧
      runBars exRuns exRunA =
        [⟨"wall_clock_time", exRunA.wall_clock_time / mWall, some exRunA.wall_clock_time⟩,
         ⟨"user_time", exRunA.user_time / mWall, none⟩,
         ⟨"system_time", exRunA.system_time / mWall, none⟩,
         ⟨"max_rss", exRunA.max_rss / mRss, some exRunA.max_rss⟩] :=
  c1_ratio_bars exRuns "oldtform" exRunA (by decide)

theorem foldl_max_smul (c : ℚ) (hc : 0 ≤ c) :
    ∀ (l : List ℚ) (x : ℚ), (l.map fun y => c * y).foldl max (c * x) = c * l.foldl max x := by
  intro l
  induction l with
  | nil => intro x; rfl
  | cons y l ih =>
    intro x
    show (l.map fun y => c * y).foldl max (max (c * x) (c * y)) = _
    rw [← mul_max_of_nonneg x y hc]
    exact ih (max x y)

theorem maxMetric_scale (m : String) (c : ℚ) (hc : 0 ≤ c)
    (runs : List (String × RunMetrics)) (get : RunMetrics → ℚ)
    (hcomm : ∀ r, get (scaleMetric m c r) = c * get r) :
    maxMetric (scaleRuns m c runs) get = c * maxMetric runs get := by
  have hmap : (scaleRuns m c runs).map (fun p => get p.2) =
      (runs.map fun p => get p.2).map fun y => c * y := by
    simp only [scaleRuns, List.map_map, Function.comp]
    exact List.map_congr_left fun p _ => hcomm p.2
  unfold maxMetric
  rw [hmap]
  cases hqs : runs.map fun p => get p.2 with
  | nil => simp
  | cons x xs =>
    show (xs.map fun y => c * y).foldl max (c * x) = c * xs.foldl max x
    exact foldl_max_smul c hc xs x

/-- Claim C7 counterexample: doubling every run's `user_time` changes the
    plotted user-time ratio (from 1/10 to 2/10), because user time is
    normalized by the wall-clock maximum, which does not scale with it. -/
theorem c7_counterexample :
    (0 : ℚ) < 2 ∧
    ratioFor (scaleRuns "user_time" 2 exRuns) (scaleMetric "user_time" 2 exRunA)
        "user_time" ≠ ratioFor exRuns exRunA "user_time" := by
  refine ⟨by norm_num, ?_⟩
  intro h
  simp +decide [ratioFor, runBars, scaleRuns, scaleMetric, exRuns, exRunA, exRunB,
    maxMetric, max_def] at h
  norm_num at h

/-- Claim C7 amended: ratios are scale-invariant for the metrics normalized
    by their own maximum — `wall_clock_time` and `max_rss` (the `syscalls`
    set is empty) — but not for `user_time`/`system_time`.  The positivity
    hypothesis keeps the statement inside Python-defined behavior (a zero
    maximum would raise `ZeroDivisionError`). -/
theorem c7_scale_invariant_wall_rss (runs : List (String × RunMetrics)) (v : String)
    (r : RunMetrics) (h : (v, r) ∈ runs) (c : ℚ) (hc : 0 < c) (m : String)
    (hm : m = "wall_clock_time" ∨ m = "max_rss")
    (hpos : 0 < maxMetric runs (metricGet m)) :
    ratioFor (scaleRuns m c runs) (scaleMetric m c r) m = ratioFor runs r m := by
  rcases hm with rfl | rfl
  · show some ((scaleMetric "wall_clock_time" c r).wall_clock_time /
        maxMetric (scaleRuns "wall_clock_time" c runs) fun q => q.wall_clock_time) =
      some (r.wall_clock_time / maxMetric runs fun q => q.wall_clock_time)
    have hsc : (scaleMetric "wall_clock_time" c r).wall_clock_time =
        c * r.wall_clock_time := by
      simp [scaleMetric]
    rw [hsc, maxMetric_scale "wall_clock_time" c (le_of_lt hc) runs _
      (fun r2 => by simp [scaleMetric]),
      mul_div_mul_left _ _ (ne_of_gt hc)]
  · show some ((scaleMetric "max_rss" c r).max_rss /
        maxMetric (scaleRuns "max_rss" c runs) fun q => q.max_rss) =
      some (r.max_rss / maxMetric runs fun q => q.max_rss)
    have hsc : (scaleMetric "max_rss" c r).max_rss = c * r.max_rss := by
      simp [scaleMetric]
    rw [hsc, maxMetric_scale "max_rss" c (le_of_lt hc) runs _
      (fun r2 => by simp [scaleMetric]),
      mul_div_mul_left _ _ (ne_of_gt hc)]

/-- Witness for C7 (amended): doubling wall-clock times leaves the
    wall-clock ratio of the first example run unchanged. -/
theorem c7_scale_invariant_wall_rss_witness :
    ratioFor (scaleRuns "wall_clock_time" 2 exRuns)
        (scaleMetric "wall_clock_time" 2 exRunA) "wall_clock_time" =
      ratioFor exRuns exRunA "wall_clock_time" :=
  c7_scale_invariant_wall_rss exRuns "oldtform" exRunA (by decide) 2 (by norm_num)
    "wall_clock_time" (Or.inl rfl)
    (by simp +decide [maxMetric, exRuns, exRunA, exRunB, metricGet, max_def])

end Plot
